import Mathlib

/-!
Shallow embedding of the interactive rendering core of the disk-usage viewer
(`src/interactive/widgets.rs`): sort modes, the entries panel, the summary
footer, and the styled character buffer they draw into.

The tree arena, `sorted_entries`, `common::path_of`, the byte formatter and
the terminal drawing primitives live outside the provided source file; they
are modelled from the specification (sections 3, 4.1 and 6), with a doc
comment on each such definition saying what is modelled.
-/

namespace Widgets

/-- Node handles are stable opaque indices into an arena (spec section 3). -/
abbrev TreeIndex := Nat

/-- Modelled from the spec: per-node payload of the tree built by the external
traversal phase — a name and an aggregated size in bytes (spec section 3).
The node-type flag is observed by the code through a filesystem query on the
canonical path, so it is carried by the environment, not by the node. -/
structure NodeData where
  name : String
  size : Nat
deriving DecidableEq, Repr

/-- Modelled from the spec: the tree is an arena of nodes with containment
edges parent → child; each entry stores its payload and its optional parent
index, so a node has an incoming edge exactly when its parent is present
(spec sections 3 and 9). -/
structure Tree where
  nodes : List (NodeData × Option TreeIndex)
deriving DecidableEq, Repr

/-- Payload of node `i`, if `i` is a valid handle. -/
def Tree.dataOf (t : Tree) (i : TreeIndex) : Option NodeData :=
  (t.nodes.get? i).map Prod.fst

/-- Parent of node `i`: the source of its incoming containment edge. -/
def Tree.parentOf (t : Tree) (i : TreeIndex) : Option TreeIndex :=
  (t.nodes.get? i).bind Prod.snd

/-- Direct children of `root`: all arena indices whose parent is `root`. -/
def Tree.childrenOf (t : Tree) (root : TreeIndex) : List TreeIndex :=
  (List.range t.nodes.length).filter (fun i => t.parentOf i = some root)

/-- Embeds the closure `is_top` of `Entries::draw` (widgets.rs lines 136-140):
a node is the absolute top when it has no incoming edge, i.e.
`tree.neighbors_directed(node_idx, petgraph::Incoming).next().is_none()`;
in the arena model an incoming edge is exactly a present parent. -/
def Tree.is_top (t : Tree) (i : TreeIndex) : Bool :=
  (t.parentOf i).isNone

/-- Embeds `enum SortMode` (widgets.rs lines 24-28). -/
inductive SortMode where
  | SizeDescending
  | SizeAscending
deriving DecidableEq, Repr

/-- Embeds `impl Default for SortMode` (widgets.rs lines 40-44). -/
def SortMode.default : SortMode := SortMode.SizeDescending

/-- Embeds `SortMode::toggle_size` (widgets.rs lines 30-38), written as the
pure transition function underlying `*self = match self { .. }`. -/
def SortMode.toggle_size : SortMode → SortMode
  | SortMode.SizeAscending => SortMode.SizeDescending
  | SortMode.SizeDescending => SortMode.SizeAscending

/-- Comparison used by the sort engine: descending mode puts the larger size
first, ascending mode the smaller (spec section 4.1). -/
def entryLe (sorting : SortMode) (a b : TreeIndex × NodeData) : Prop :=
  match sorting with
  | SortMode.SizeDescending => b.2.size ≤ a.2.size
  | SortMode.SizeAscending => a.2.size ≤ b.2.size

instance entryLe.decRel (sorting : SortMode) : DecidableRel (entryLe sorting) := by
  intro a b
  cases sorting <;> (dsimp [entryLe]; infer_instance)

instance entryLe.isTotal (sorting : SortMode) :
    IsTotal (TreeIndex × NodeData) (entryLe sorting) := by
  constructor
  intro a b
  cases sorting <;> (dsimp [entryLe]; exact Nat.le_total _ _)

instance entryLe.isTrans (sorting : SortMode) :
    IsTrans (TreeIndex × NodeData) (entryLe sorting) := by
  constructor
  intro a b c hab hbc
  cases sorting <;> (dsimp [entryLe] at *; omega)

/-- Modelled from the spec: `sorted_entries` (imported by widgets.rs from the
crate root, not among the provided sources) produces the ordered sequence of
(child handle, payload) pairs for all direct children of `root`, ordered by
size according to the mode, with ties broken stably so repeated calls agree
(spec section 4.1). A stable insertion sort over the arena-order child list
realises this contract. -/
def sorted_entries (t : Tree) (root : TreeIndex) (sorting : SortMode) :
    List (TreeIndex × NodeData) :=
  let children := (t.childrenOf root).filterMap
    (fun i => (t.dataOf i).map (fun d => (i, d)))
  List.insertionSort (entryLe sorting) children

end Widgets

namespace Widgets

/-- Terminal colors used by the widgets; `Reset` is the terminal default. -/
inductive Color where
  | White
  | Black
  | Reset
deriving DecidableEq, Repr

/-- Foreground and background of a drawn cell (the `tui::style::Style` fields
the widgets set; the remaining modifier fields are left at their defaults). -/
structure Style where
  fg : Color
  bg : Color
deriving DecidableEq, Repr

/-- One styled character cell of the terminal buffer. -/
structure Cell where
  symbol : Char
  fg : Color
  bg : Color
deriving DecidableEq, Repr

/-- Modelled from the spec: the shared styled-character output buffer exposed
by the terminal-rendering host (spec section 6), as a total assignment of a
cell to every (column, row) coordinate. -/
def Buffer := Nat → Nat → Cell

/-- Embeds `tui::layout::Rect`; coordinates and extents are kept as naturals,
with the one claim-relevant u16 overflow made explicit in `footerDraw`. -/
structure Rect where
  x : Nat
  y : Nat
  width : Nat
  height : Nat
deriving DecidableEq, Repr

/-- Membership of a coordinate in a rectangular region. -/
def Rect.Contains (r : Rect) (px py : Nat) : Prop :=
  r.x ≤ px ∧ px < r.x + r.width ∧ r.y ≤ py ∧ py < r.y + r.height

instance (r : Rect) (px py : Nat) : Decidable (r.Contains px py) := by
  unfold Rect.Contains; infer_instance

/-- Writes one cell of the buffer. -/
def setCell (buf : Buffer) (x y : Nat) (c : Cell) : Buffer :=
  fun px py => if px = x ∧ py = y then c else buf px py

/-- Writes a run of characters left to right on row `y` starting at column
`x`, all with the given style. -/
def setChars (buf : Buffer) (x y : Nat) (cs : List Char) (st : Style) : Buffer :=
  match cs with
  | [] => buf
  | c :: rest => setChars (setCell buf x y ⟨c, st.fg, st.bg⟩) (x + 1) y rest st

/-- Modelled from the spec: `tui::buffer::Buffer::set_stringn` of the
terminal-rendering host writes at most `limit` characters of `s` on the single
row `y` starting at column `x`; it never wraps to another row. -/
def set_stringn (buf : Buffer) (x y : Nat) (s : String) (limit : Nat)
    (st : Style) : Buffer :=
  setChars buf x y (s.toList.take limit) st

/-- Modelled from the spec: `tui::widgets::Widget::background` fills the
background color of every cell of the given region, leaving symbols and
foreground colors in place. -/
def background (area : Rect) (buf : Buffer) (c : Color) : Buffer :=
  fun px py =>
    if area.Contains px py then { buf px py with bg := c } else buf px py

/-- Embeds `struct Footer` (widgets.rs lines 58-62); the `ByteFormat` field is
an external formatting collaborator (spec section 1) and is therefore passed
to `footerDraw` as a function. -/
structure Footer where
  total_bytes : Option Nat
  entries_traversed : Nat

/-- Panic message of the `assert!` at widgets.rs line 66. -/
def footerAssertMsg : String := "The footer must be a line"

/-- Panic message of a checked u16 subtraction that underflows. -/
def subOverflowMsg : String := "attempt to subtract with overflow"

/-- Embeds the `format!` argument of `Footer::draw` (widgets.rs lines 74-81):
the formatted total byte count, trimmed, when known, the placeholder `-` when
unknown, then the entries-traversed counter. -/
def footerText (fmtBytes : Nat → String) (f : Footer) : String :=
  "Total disk usage: " ++
    (match f.total_bytes with
      | some b => (fmtBytes b).trim
      | none => "-") ++
    "  Entries: " ++ toString f.entries_traversed

/-- Embeds `Footer::draw` (widgets.rs lines 64-89). The `assert!` on the
region height and the panic of the checked u16 subtraction `area.width -
margin` are made explicit as `Except.error`; on success the row is filled
with the white background and the footer text is written at a one-column
margin, truncated to `area.width - margin` characters. -/
def footerDraw (fmtBytes : Nat → String) (f : Footer) (area : Rect)
    (buf : Buffer) : Except String Buffer :=
  if area.height ≠ 1 then Except.error footerAssertMsg
  else
    let margin := 1
    let buf := background area buf Color.White
    if area.width < margin then Except.error subOverflowMsg
    else Except.ok (set_stringn buf (area.x + margin) area.y
      (footerText fmtBytes f) (area.width - margin) ⟨Color.Black, Color.White⟩)

end Widgets

namespace Widgets

/-- Modelled from the spec: the external collaborators `Entries::draw` reads
(spec sections 1 and 6) — the byte formatter (`display.byte_format.display`),
the finite-percentage formatter (the IEEE f64 evaluation and right-aligned
two-decimal formatting of a finite quotient, abstract because no claim
inspects its digits), `crate::common::path_of` as the map from a handle to
its canonical filesystem path, the filesystem answer to `Path::is_dir` on
that path, and the outcome of canonicalizing the current working directory. -/
structure Env where
  fmtBytes : Nat → String
  pctFinite : Nat → Nat → String
  pathOf : TreeIndex → String
  isDirPath : TreeIndex → Bool
  cwdCanon : Option String

/-- Embeds the percentage field `{:>5.02}` of widgets.rs line 171, computed
there as `(w.size as f64 / total as f64) * 100.0`. IEEE f64 division is made
explicit where the divisor is zero: `0.0 / 0.0` is NaN, which the Rust
formatter renders right-aligned in width 5 as `"  NaN"`, and `s / 0.0` for
positive `s` is positive infinity, rendered `"  inf"` (unreachable here since
the total is the sum of the sizes). The finite case is delegated to the
environment formatter. -/
def pctString (env : Env) (size total : Nat) : String :=
  if total = 0 then
    if size = 0 then "  NaN" else "  inf"
  else env.pctFinite size total

/-- Embeds the marker match of widgets.rs lines 172-175: the slash is chosen
exactly when the filesystem reports the child path as a directory and the
viewed root is not the absolute top; otherwise a space. -/
def entryMarker (env : Env) (t : Tree) (root : TreeIndex)
    (node_idx : TreeIndex) : String :=
  if env.isDirPath node_idx && !(t.is_top root) then "/" else " "

/-- Highlight palette of the selected row (widgets.rs lines 156-160). -/
def highlightStyle : Style := ⟨Color.Black, Color.White⟩

/-- Default palette of every other row (widgets.rs lines 161-165). -/
def defaultStyle : Style := ⟨Color.White, Color.Reset⟩

/-- Embeds the style match of widgets.rs lines 155-166: the inverted palette
exactly when `selected` is present and equals the handle of the row. -/
def entryStyle (selected : Option TreeIndex) (node_idx : TreeIndex) : Style :=
  match selected with
  | some idx => if idx = node_idx then highlightStyle else defaultStyle
  | none => defaultStyle

/-- Embeds the row text `format!` of widgets.rs lines 168-177: formatted size,
percentage, marker, then the entry name. -/
def entryText (env : Env) (t : Tree) (root : TreeIndex) (total : Nat)
    (e : TreeIndex × NodeData) : String :=
  env.fmtBytes e.2.size ++ " | " ++ pctString env e.2.size total ++ "% | " ++
    entryMarker env t root e.1 ++ e.2.name

/-- Embeds the title computation of widgets.rs lines 145-151: the canonical
path of the viewed root, falling back to the canonicalized current working
directory when that path is empty, and to the literal `.` when
canonicalization fails. -/
def entriesTitle (env : Env) (root : TreeIndex) : String :=
  let p := env.pathOf root
  if p = "" then
    match env.cwdCanon with
    | some q => q
    | none => "."
  else p

/-- Embeds `struct Entries` (widgets.rs lines 16-22); the `DisplayOptions`
field only selects the byte format, which lives in the environment. -/
structure Entries where
  tree : Tree
  root : TreeIndex
  sorting : SortMode
  selected : Option TreeIndex

/-- Embeds the list items built in widgets.rs lines 143-181: the sorted
entries of the viewed root, each turned into its formatted text and style,
with the level total computed as the sum of the entry sizes (line 144). -/
def entriesRows (env : Env) (t : Tree) (root : TreeIndex) (sorting : SortMode)
    (selected : Option TreeIndex) : List (String × Style) :=
  let entries := sorted_entries t root sorting
  let total := (entries.map (fun e => e.2.size)).sum
  entries.map (fun e => (entryText env t root total e, entryStyle selected e.1))

/-- Style of the border cells drawn by the block (its default style). -/
def borderStyle : Style := ⟨Color.Reset, Color.Reset⟩

/-- Modelled from the spec: the bordered, titled block of the entries panel
(spec section 4.3), as drawn by the terminal-rendering host. A region
narrower or shorter than two cells draws nothing; otherwise the region
background is reset, the four border lines are drawn on the perimeter, and
the title is written on the top edge starting one column in, truncated to the
interior width. -/
def blockDraw (title : String) (area : Rect) (buf : Buffer) : Buffer :=
  if area.width < 2 || area.height < 2 then buf
  else
    let b := background area buf Color.Reset
    let b := (List.range area.height).foldl
      (fun b dy => setCell b area.x (area.y + dy)
        ⟨'│', borderStyle.fg, borderStyle.bg⟩) b
    let b := (List.range area.height).foldl
      (fun b dy => setCell b (area.x + area.width - 1) (area.y + dy)
        ⟨'│', borderStyle.fg, borderStyle.bg⟩) b
    let b := (List.range area.width).foldl
      (fun b dx => setCell b (area.x + dx) area.y
        ⟨'─', borderStyle.fg, borderStyle.bg⟩) b
    let b := (List.range area.width).foldl
      (fun b dx => setCell b (area.x + dx) (area.y + area.height - 1)
        ⟨'─', borderStyle.fg, borderStyle.bg⟩) b
    set_stringn b (area.x + 1) area.y title (area.width - 2) borderStyle

/-- Interior of a block bordered on all four sides; the saturating natural
subtraction mirrors the saturating shrink of the region. -/
def Rect.inner (r : Rect) : Rect :=
  ⟨r.x + 1, r.y + 1, r.width - 2, r.height - 2⟩

/-- Modelled from the spec: the list rendering of the terminal host used by
the entries panel — rows laid out top to bottom starting at the top-left
interior corner of the bordered block (spec section 4.3), each row written
with its own style and truncated to the interior width, at most one row per
interior line. -/
def listDraw (title : String) (items : List (String × Style)) (area : Rect)
    (buf : Buffer) : Buffer :=
  let buf := blockDraw title area buf
  let inner := area.inner
  if inner.width < 1 || inner.height < 1 then buf
  else
    let buf := background inner buf Color.Reset
    ((items.take inner.height).enum).foldl
      (fun b p => set_stringn b inner.x (inner.y + p.1) p.2.1 inner.width p.2.2)
      buf

/-- Embeds `Entries::draw` (widgets.rs lines 127-185): the rows of the viewed
root rendered as a list inside a bordered block titled with the padded
canonical path. -/
def entriesDraw (env : Env) (e : Entries) (area : Rect) (buf : Buffer) :
    Buffer :=
  listDraw (" " ++ entriesTitle env e.root ++ " ")
    (entriesRows env e.tree e.root e.sorting e.selected) area buf

end Widgets

namespace Widgets

/-- Concrete rendering environment used to instantiate theorems. -/
def envA : Env :=
  ⟨fun n => toString n, fun _ _ => "12.34", fun i => toString i,
    fun _ => true, some "/cwd"⟩

/-- Concrete environment whose paths are empty, whose canonicalization fails
and whose formatters return empty strings. -/
def envB : Env := ⟨fun _ => "", fun _ _ => "", fun _ => "", fun _ => false, none⟩

/-- Concrete tree: a top node with two children of sizes 600 and 300. -/
def treeA : Tree := ⟨[(⟨"top", 900⟩, none), (⟨"a", 600⟩, some 0), (⟨"b", 300⟩, some 0)]⟩

/-- Concrete tree for the zero-total case: one child of size zero. -/
def treeZ : Tree := ⟨[(⟨"r", 0⟩, none), (⟨"a", 0⟩, some 0)]⟩

/-- Concrete blank buffer. -/
def bufA : Buffer := fun _ _ => ⟨' ', Color.Reset, Color.Reset⟩

end Widgets

namespace Widgets

/-- C8: toggling SortMode is an involution, a single toggle maps
SizeAscending to SizeDescending and SizeDescending to SizeAscending, and the
state space has no further values, hence no other transitions. -/
theorem sortMode_toggle_involution :
    (∀ m : SortMode, m.toggle_size.toggle_size = m) ∧
    SortMode.SizeAscending.toggle_size = SortMode.SizeDescending ∧
    SortMode.SizeDescending.toggle_size = SortMode.SizeAscending ∧
    (∀ m : SortMode, m = SortMode.SizeAscending ∨ m = SortMode.SizeDescending) := by
  refine ⟨fun m => ?_, rfl, rfl, fun m => ?_⟩ <;>
    cases m <;> simp [SortMode.toggle_size]

/-- C7: the sequence the entries panel renders is monotone in size: adjacent
entries are nonincreasing under SizeDescending and nondecreasing under
SizeAscending. -/
theorem sorted_entries_adjacent_monotone (t : Tree) (root : TreeIndex) :
    List.Chain' (fun a b : TreeIndex × NodeData => b.2.size ≤ a.2.size)
      (sorted_entries t root SortMode.SizeDescending) ∧
    List.Chain' (fun a b : TreeIndex × NodeData => a.2.size ≤ b.2.size)
      (sorted_entries t root SortMode.SizeAscending) := by
  constructor
  · exact (List.sorted_insertionSort (entryLe SortMode.SizeDescending)
      ((t.childrenOf root).filterMap
        (fun i => (t.dataOf i).map (fun d => (i, d))))).chain'
  · exact (List.sorted_insertionSort (entryLe SortMode.SizeAscending)
      ((t.childrenOf root).filterMap
        (fun i => (t.dataOf i).map (fun d => (i, d))))).chain'

/-- C3: the footer draw fails with the assertion message exactly when the
region height is not one row; for a one-row region the assertion passes. -/
theorem footer_assert_iff_height_ne_one (fmtBytes : Nat → String) (f : Footer)
    (area : Rect) (buf : Buffer) :
    footerDraw fmtBytes f area buf = Except.error footerAssertMsg ↔
      area.height ≠ 1 := by
  constructor
  · intro hE h1
    unfold footerDraw at hE
    rw [if_neg (not_not_intro h1)] at hE
    dsimp only at hE
    split at hE
    · rw [Except.error.injEq] at hE
      exact absurd hE (by decide)
    · exact Except.noConfusion hE
  · intro h1
    unfold footerDraw
    rw [if_pos h1]

/-- C6: the panel title is the canonical path of the viewed root; when that
path is empty it falls back to the canonicalized current working directory,
and to the literal `.` when canonicalization fails, so a path-resolution
failure never escapes the rendering core. -/
theorem entries_title_fallback (env : Env) (root : TreeIndex) :
    (env.pathOf root ≠ "" → entriesTitle env root = env.pathOf root) ∧
    (env.pathOf root = "" → ∀ q, env.cwdCanon = some q →
      entriesTitle env root = q) ∧
    (env.pathOf root = "" → env.cwdCanon = none →
      entriesTitle env root = ".") := by
  refine ⟨fun h => ?_, fun h q hq => ?_, fun h hn => ?_⟩
  · simp [entriesTitle, h]
  · simp [entriesTitle, h, hq]
  · simp [entriesTitle, h, hn]

/-- Instantiation of the C6 theorem: with an empty root path and failing
canonicalization the title is the placeholder dot. -/
theorem entries_title_fallback_witness :
    envB.pathOf 0 = "" ∧ envB.cwdCanon = none ∧ entriesTitle envB 0 = "." :=
  ⟨rfl, rfl, (entries_title_fallback envB 0).2.2 rfl rfl⟩

/-- C2: the directory marker is the slash exactly when the filesystem reports
the child path as a directory and the viewed root is not the absolute top,
otherwise it is a space, so at the absolute top even directory children carry
no marker; being the absolute top is having no incoming edge. -/
theorem entry_marker_spec (env : Env) (t : Tree) (root node_idx : TreeIndex) :
    (entryMarker env t root node_idx = "/" ↔
      env.isDirPath node_idx = true ∧ t.is_top root = false) ∧
    (¬(env.isDirPath node_idx = true ∧ t.is_top root = false) →
      entryMarker env t root node_idx = " ") ∧
    (t.is_top root = true ↔ t.parentOf root = none) := by
  refine ⟨?_, ?_, ?_⟩
  · by_cases hd : env.isDirPath node_idx = true <;>
      by_cases ht : t.is_top root = true <;>
        simp [entryMarker, hd, ht]
  · intro hns
    by_cases hd : env.isDirPath node_idx = true <;>
      by_cases ht : t.is_top root = true <;>
        simp [entryMarker, hd, ht] <;>
          first
            | rfl
            | (exact absurd ⟨hd, by simp [ht]⟩ hns)
  · simp [Tree.is_top, Option.isNone_iff_eq_none]

/-- Instantiation of the C2 theorem: a directory child viewed from a non-top
root renders the slash marker. -/
theorem entry_marker_spec_witness :
    (envA.isDirPath 2 = true ∧ treeA.is_top 1 = false) ∧
    entryMarker envA treeA 1 2 = "/" :=
  ⟨by decide, (entry_marker_spec envA treeA 1 2).1.mpr (by decide)⟩

/-- C1, evaluated at the failing input: a root whose only child has size zero
gives a zero level total, and the rendered percentage field is the IEEE
artifact of `0.0 / 0.0`, displayed `  NaN`, not the `0.00` the specification
requires; the full rendered row carries the invalid value. -/
theorem entries_zero_total_renders_nan :
    ((sorted_entries treeZ 0 SortMode.SizeDescending).map
        (fun e => e.2.size)).sum = 0 ∧
    entriesRows envB treeZ 0 SortMode.SizeDescending none
      = [(" |   NaN% |  a", defaultStyle)] ∧
    pctString envB 0 0 = "  NaN" ∧ pctString envB 0 0 ≠ " 0.00" := by decide

end Widgets

namespace Widgets

/-- Unfolding of `entriesRows` with its level total written out. -/
theorem entriesRows_eq (env : Env) (t : Tree) (root : TreeIndex)
    (s : SortMode) (sel : Option TreeIndex) :
    entriesRows env t root s sel =
      (sorted_entries t root s).map
        (fun e => (entryText env t root
            (((sorted_entries t root s).map (fun e => e.2.size)).sum) e,
          entryStyle sel e.1)) := rfl

/-- Members of the first projection of the tagged filterMap come from the
underlying index list. -/
theorem mem_of_mem_map_fst_filterMap {g : Nat → Option NodeData}
    {l : List Nat} {a : Nat}
    (h : a ∈ (l.filterMap (fun i => (g i).map (fun d => (i, d)))).map
      Prod.fst) : a ∈ l := by
  rcases List.mem_map.mp h with ⟨p, hp, hfst⟩
  rcases List.mem_filterMap.mp hp with ⟨i, hi, hgi⟩
  cases hg : g i with
  | none => rw [hg] at hgi; exact absurd hgi (by simp)
  | some d =>
    rw [hg] at hgi
    simp only [Option.map_some', Option.some.injEq] at hgi
    rw [← hfst, ← hgi]
    exact hi

/-- The first projections of the tagged filterMap over a duplicate-free index
list are duplicate-free. -/
theorem nodup_map_fst_filterMap (g : Nat → Option NodeData) :
    ∀ l : List Nat, l.Nodup →
      ((l.filterMap (fun i => (g i).map (fun d => (i, d)))).map
        Prod.fst).Nodup := by
  intro l
  induction l with
  | nil => intro _; simp
  | cons i l ih =>
    intro hnd
    rw [List.nodup_cons] at hnd
    cases hg : g i with
    | none => simpa [List.filterMap_cons, hg] using ih hnd.2
    | some d =>
      simp only [List.filterMap_cons, hg, Option.map_some', List.map_cons]
      rw [List.nodup_cons]
      exact ⟨fun hmem => hnd.1 (mem_of_mem_map_fst_filterMap hmem), ih hnd.2⟩

/-- The handles of the sorted entries of a level are pairwise distinct. -/
theorem nodup_sorted_entries_fst (t : Tree) (root : TreeIndex) (s : SortMode) :
    ((sorted_entries t root s).map Prod.fst).Nodup := by
  have hbase : (((t.childrenOf root).filterMap
      (fun i => (t.dataOf i).map (fun d => (i, d)))).map Prod.fst).Nodup :=
    nodup_map_fst_filterMap t.dataOf _ ((List.nodup_range _).filter _)
  have hperm : ((sorted_entries t root s).map Prod.fst).Perm
      (((t.childrenOf root).filterMap
        (fun i => (t.dataOf i).map (fun d => (i, d)))).map Prod.fst) :=
    (List.perm_insertionSort (entryLe s) _).map _
  exact hperm.nodup_iff.mpr hbase

/-- C4: exactly one rendered row carries the inverted palette when the
selection equals the handle of one of the rendered children, zero rows when
the selection is absent or resolves to no rendered child, and every row
carries either the inverted or the default palette. -/
theorem entries_highlight_count (env : Env) (t : Tree) (root : TreeIndex)
    (s : SortMode) (sel : Option TreeIndex) :
    ((entriesRows env t root s sel).countP
        (fun r => decide (r.2 = highlightStyle))) =
      (match sel with
        | none => 0
        | some idx =>
          if idx ∈ (sorted_entries t root s).map Prod.fst then 1 else 0) ∧
    (∀ r ∈ entriesRows env t root s sel,
      r.2 = highlightStyle ∨ r.2 = defaultStyle) := by
  constructor
  · rw [entriesRows_eq, List.countP_map]
    cases sel with
    | none =>
      apply List.countP_eq_zero.mpr
      intro e _
      simp [Function.comp, entryStyle, highlightStyle, defaultStyle]
    | some idx =>
      have hcongr : ∀ x ∈ sorted_entries t root s,
          ((fun r : String × Style => decide (r.2 = highlightStyle)) ∘
            (fun e : TreeIndex × NodeData => (entryText env t root
              (((sorted_entries t root s).map (fun e => e.2.size)).sum) e,
              entryStyle (some idx) e.1))) x = true ↔ (x.1 == idx) = true := by
        intro e _
        by_cases h : idx = e.1
        · have hstyle : entryStyle (some idx) e.1 = highlightStyle := by
            simp [entryStyle, h]
          simp only [Function.comp_apply, hstyle, beq_iff_eq, decide_eq_true_eq]
          exact ⟨fun _ => h.symm, fun _ => by trivial⟩
        · have hstyle : entryStyle (some idx) e.1 = defaultStyle := by
            simp [entryStyle, h]
          simp only [Function.comp_apply, hstyle, beq_iff_eq, decide_eq_true_eq]
          constructor
          · intro hfd
            exact absurd hfd (by decide)
          · intro he
            exact absurd he.symm h
      rw [List.countP_congr hcongr]
      have hcount : (sorted_entries t root s).countP (fun x => x.1 == idx) =
          ((sorted_entries t root s).map Prod.fst).countP (fun a => a == idx) := by
        rw [List.countP_map]
        rfl
      rw [hcount]
      have := List.count_eq_of_nodup (a := idx)
        (nodup_sorted_entries_fst t root s)
      exact this
  · intro r hr
    rw [entriesRows_eq] at hr
    rcases List.mem_map.mp hr with ⟨e, _, rfl⟩
    cases sel with
    | none => right; rfl
    | some idx =>
      by_cases h : idx = e.1
      · left; simp [entryStyle, h]
      · right; simp [entryStyle, h]

/-- Instantiation of the C4 theorem: selecting the second of two rendered
children highlights exactly one row. -/
theorem entries_highlight_count_witness :
    (2 ∈ (sorted_entries treeA 0 SortMode.SizeDescending).map Prod.fst) ∧
    ((entriesRows envA treeA 0 SortMode.SizeDescending (some 2)).countP
        (fun r => decide (r.2 = highlightStyle))) =
      (if 2 ∈ (sorted_entries treeA 0 SortMode.SizeDescending).map Prod.fst
        then 1 else 0) :=
  ⟨by decide,
    (entries_highlight_count envA treeA 0 SortMode.SizeDescending (some 2)).1⟩

end Widgets

namespace Widgets

/-- A cell write leaves every other coordinate unchanged. -/
theorem setCell_ne (buf : Buffer) (x y : Nat) (c : Cell) (px py : Nat)
    (h : ¬(px = x ∧ py = y)) : setCell buf x y c px py = buf px py :=
  if_neg h

/-- A cell write at a coordinate inside a region leaves every coordinate
outside that region unchanged. -/
theorem setCell_preserves_outside (area : Rect) (cx cy : Nat)
    (hin : area.Contains cx cy) (buf : Buffer) (c : Cell) (px py : Nat)
    (h : ¬ area.Contains px py) : setCell buf cx cy c px py = buf px py := by
  apply setCell_ne
  intro hc
  exact h (by rw [hc.1, hc.2]; exact hin)

/-- A character run changes nothing off its row or outside its columns. -/
theorem setChars_outside (cs : List Char) :
    ∀ (buf : Buffer) (x y : Nat) (st : Style) (px py : Nat),
      (py ≠ y ∨ px < x ∨ x + cs.length ≤ px) →
      setChars buf x y cs st px py = buf px py := by
  induction cs with
  | nil => intro buf x y st px py _; rfl
  | cons c rest ih =>
    intro buf x y st px py h
    simp only [List.length_cons] at h
    show setChars (setCell buf x y ⟨c, st.fg, st.bg⟩) (x + 1) y rest st px py
      = buf px py
    rw [ih _ _ _ _ _ _ (by omega)]
    exact setCell_ne _ _ _ _ _ _ (by omega)

/-- A character run writes its characters, with the style colors, at the
consecutive columns of its row. -/
theorem setChars_at (cs : List Char) :
    ∀ (buf : Buffer) (x y : Nat) (st : Style) (i : Nat), i < cs.length →
      setChars buf x y cs st (x + i) y = ⟨cs.getD i ' ', st.fg, st.bg⟩ := by
  induction cs with
  | nil => intro buf x y st i h; exact absurd h (by simp)
  | cons c rest ih =>
    intro buf x y st i h
    show setChars (setCell buf x y ⟨c, st.fg, st.bg⟩) (x + 1) y rest st (x + i) y
      = _
    cases i with
    | zero =>
      rw [setChars_outside rest _ _ _ _ _ _ (by omega)]
      simp [setCell]
    | succ j =>
      rw [show x + (j + 1) = (x + 1) + j by omega,
        ih _ _ _ _ j (by simpa using h)]
      simp [List.getD_cons_succ]

/-- Every cell a character run touches receives the background color of its
style; every other cell is passed through. -/
theorem setChars_bg_or (cs : List Char) :
    ∀ (buf : Buffer) (x y : Nat) (st : Style) (px py : Nat),
      setChars buf x y cs st px py = buf px py ∨
      (setChars buf x y cs st px py).bg = st.bg := by
  induction cs with
  | nil => intro buf x y st px py; left; rfl
  | cons c rest ih =>
    intro buf x y st px py
    show setChars (setCell buf x y ⟨c, st.fg, st.bg⟩) (x + 1) y rest st px py
        = buf px py ∨
      (setChars (setCell buf x y ⟨c, st.fg, st.bg⟩) (x + 1) y rest st px py).bg
        = st.bg
    rcases ih (setCell buf x y ⟨c, st.fg, st.bg⟩) (x + 1) y st px py with h | h
    · by_cases hc : px = x ∧ py = y
      · right
        rw [h]
        simp [setCell, hc]
      · left
        rw [h]
        simp [setCell, hc]
    · right
      exact h

/-- Filling a region changes nothing outside it. -/
theorem background_outside (area : Rect) (buf : Buffer) (c : Color)
    (px py : Nat) (h : ¬ area.Contains px py) :
    background area buf c px py = buf px py :=
  if_neg h

/-- Filling a region paints the background of every cell inside it. -/
theorem background_bg (area : Rect) (buf : Buffer) (c : Color) (px py : Nat)
    (h : area.Contains px py) : (background area buf c px py).bg = c := by
  simp [background, h]

/-- A left fold of buffer writes that each preserve a coordinate preserves
that coordinate. -/
theorem foldl_point_preserved {α : Type} (px py : Nat)
    (f : Buffer → α → Buffer) :
    ∀ (l : List α) (buf : Buffer),
      (∀ b a, a ∈ l → f b a px py = b px py) →
      l.foldl f buf px py = buf px py := by
  intro l
  induction l with
  | nil => intro buf _; rfl
  | cons a l ih =>
    intro buf h
    show (l.foldl f (f buf a)) px py = buf px py
    rw [ih (f buf a) (fun b a2 ha2 => h b a2 (List.mem_cons_of_mem _ ha2)),
      h buf a (List.mem_cons_self _ _)]

end Widgets

namespace Widgets

/-- Successful unfolding of the footer draw on a one-row region of positive
width. -/
theorem footerDraw_ok (fmtBytes : Nat → String) (f : Footer) (area : Rect)
    (buf : Buffer) (hh : area.height = 1) (hw : 1 ≤ area.width) :
    footerDraw fmtBytes f area buf = Except.ok
      (set_stringn (background area buf Color.White) (area.x + 1) area.y
        (footerText fmtBytes f) (area.width - 1)
        ⟨Color.Black, Color.White⟩) := by
  unfold footerDraw
  rw [if_neg (not_not_intro hh)]
  dsimp only
  rw [if_neg (by omega)]

/-- C5: on a one-row region of positive width the footer draw succeeds; the
footer text is exactly the summary line with the formatted, trimmed total
when known and the placeholder dash when unknown, followed by the
entries-traversed counter; every cell of the region has the white background;
the text, truncated to the region width minus the one-column margin, is
written black on white starting one column in; and no cell of any other row
changes, so the text is never wrapped. -/
theorem footer_draw_text_spec (fmtBytes : Nat → String) (f : Footer)
    (area : Rect) (buf : Buffer) (hh : area.height = 1) (hw : 1 ≤ area.width) :
    footerText fmtBytes f =
      "Total disk usage: " ++
        (match f.total_bytes with
          | some b => (fmtBytes b).trim
          | none => "-") ++ "  Entries: " ++ toString f.entries_traversed ∧
    ∃ out, footerDraw fmtBytes f area buf = Except.ok out ∧
      (∀ px py, area.Contains px py → (out px py).bg = Color.White) ∧
      (∀ i, i < ((footerText fmtBytes f).toList.take (area.width - 1)).length →
        out (area.x + 1 + i) area.y =
          ⟨((footerText fmtBytes f).toList.take (area.width - 1)).getD i ' ',
            Color.Black, Color.White⟩) ∧
      (∀ px py, py ≠ area.y → out px py = buf px py) := by
  refine ⟨rfl, _, footerDraw_ok fmtBytes f area buf hh hw, ?_, ?_, ?_⟩
  · intro px py hc
    rcases setChars_bg_or ((footerText fmtBytes f).toList.take (area.width - 1))
      (background area buf Color.White) (area.x + 1) area.y
      ⟨Color.Black, Color.White⟩ px py with h | h
    · show (setChars (background area buf Color.White) (area.x + 1) area.y
        ((footerText fmtBytes f).toList.take (area.width - 1))
        ⟨Color.Black, Color.White⟩ px py).bg = Color.White
      rw [h]
      exact background_bg area buf Color.White px py hc
    · exact h
  · intro i hi
    show setChars (background area buf Color.White) (area.x + 1) area.y
        ((footerText fmtBytes f).toList.take (area.width - 1))
        ⟨Color.Black, Color.White⟩ (area.x + 1 + i) area.y = _
    exact setChars_at _ _ _ _ _ i hi
  · intro px py hpy
    show setChars (background area buf Color.White) (area.x + 1) area.y
        ((footerText fmtBytes f).toList.take (area.width - 1))
        ⟨Color.Black, Color.White⟩ px py = buf px py
    rw [setChars_outside _ _ _ _ _ _ _ (Or.inl hpy)]
    exact background_outside area buf Color.White px py
      (by simp only [Rect.Contains]; omega)

/-- Instantiation of the C5 theorem: with an unknown total and 7 entries the
footer text is the summary line with the dash placeholder, and the draw
succeeds on a 30-column one-row region. -/
theorem footer_draw_text_spec_witness :
    footerText (fun n => toString n) ⟨none, 7⟩
      = "Total disk usage: -  Entries: 7" ∧
    ∃ out, footerDraw (fun n => toString n) ⟨none, 7⟩ ⟨0, 0, 30, 1⟩ bufA
      = Except.ok out :=
  have h := footer_draw_text_spec (fun n => toString n) ⟨none, 7⟩
    ⟨0, 0, 30, 1⟩ bufA rfl (by decide)
  ⟨by rw [h.1]; rfl, h.2.imp fun out hout => hout.1⟩

/-- C10: footer drawing is total only when the region is at least one column
wide: a one-row region of width zero aborts with the unsigned-subtraction
underflow while computing the truncation width, whereas on any one-row
region of positive width the subtraction is defined, the draw succeeds, at
most width minus one characters of text are written, and no cell outside the
region changes. -/
theorem footer_width_underflow (fmtBytes : Nat → String) (f : Footer) :
    footerDraw fmtBytes f ⟨0, 0, 0, 1⟩ bufA = Except.error subOverflowMsg ∧
    (∀ area buf, area.height = 1 → 1 ≤ area.width →
      ∃ out, footerDraw fmtBytes f area buf = Except.ok out ∧
        ((footerText fmtBytes f).toList.take (area.width - 1)).length ≤
          area.width - 1 ∧
        (∀ px py, ¬ area.Contains px py → out px py = buf px py)) := by
  constructor
  · unfold footerDraw
    rw [if_neg (by decide)]
    dsimp only
    rw [if_pos (by decide)]
  · intro area buf hh hw
    have hlen := List.length_take_le (area.width - 1)
      (footerText fmtBytes f).toList
    refine ⟨_, footerDraw_ok fmtBytes f area buf hh hw, hlen, ?_⟩
    intro px py hc
    show setChars (background area buf Color.White) (area.x + 1) area.y
        ((footerText fmtBytes f).toList.take (area.width - 1))
        ⟨Color.Black, Color.White⟩ px py = buf px py
    rw [setChars_outside _ _ _ _ _ _ _
      (by simp only [Rect.Contains] at hc; omega)]
    exact background_outside area buf Color.White px py hc

/-- Instantiation of the C10 theorem: a one-row four-column region draws
without error. -/
theorem footer_width_underflow_witness :
    (⟨5, 6, 4, 1⟩ : Rect).height = 1 ∧ 1 ≤ (⟨5, 6, 4, 1⟩ : Rect).width ∧
    ∃ out, footerDraw (fun _ => "") ⟨some 3, 2⟩ ⟨5, 6, 4, 1⟩ bufA
      = Except.ok out :=
  have h := (footer_width_underflow (fun _ => "") ⟨some 3, 2⟩).2
    ⟨5, 6, 4, 1⟩ bufA rfl (by decide)
  ⟨rfl, by decide, h.imp fun out hout => hout.1⟩

end Widgets

namespace Widgets

/-- The block draw changes no cell outside its region. -/
theorem blockDraw_outside (title : String) (area : Rect) (buf : Buffer)
    (px py : Nat) (h : ¬ area.Contains px py) :
    blockDraw title area buf px py = buf px py := by
  simp only [blockDraw]
  split
  · rfl
  · rename_i hdim
    simp only [Bool.or_eq_true, decide_eq_true_eq, not_or, not_lt] at hdim
    obtain ⟨hw2, hh2⟩ := hdim
    have hlen := List.length_take_le (area.width - 2) title.toList
    rw [set_stringn]
    rw [setChars_outside _ _ _ _ _ _ _
      (by simp only [Rect.Contains] at h; omega)]
    rw [foldl_point_preserved px py _ (List.range area.width) _
      (fun b dx hdx => setCell_preserves_outside area _ _
        (by have hdx2 := List.mem_range.mp hdx
            simp only [Rect.Contains]; omega) b _ px py h)]
    rw [foldl_point_preserved px py _ (List.range area.width) _
      (fun b dx hdx => setCell_preserves_outside area _ _
        (by have hdx2 := List.mem_range.mp hdx
            simp only [Rect.Contains]; omega) b _ px py h)]
    rw [foldl_point_preserved px py _ (List.range area.height) _
      (fun b dy hdy => setCell_preserves_outside area _ _
        (by have hdy2 := List.mem_range.mp hdy
            simp only [Rect.Contains]; omega) b _ px py h)]
    rw [foldl_point_preserved px py _ (List.range area.height) _
      (fun b dy hdy => setCell_preserves_outside area _ _
        (by have hdy2 := List.mem_range.mp hdy
            simp only [Rect.Contains]; omega) b _ px py h)]
    exact background_outside area buf Color.Reset px py h

/-- The list draw changes no cell outside its region. -/
theorem listDraw_outside (title : String) (items : List (String × Style))
    (area : Rect) (buf : Buffer) (px py : Nat) (h : ¬ area.Contains px py) :
    listDraw title items area buf px py = buf px py := by
  simp only [listDraw]
  split
  · exact blockDraw_outside title area buf px py h
  · rename_i hdim
    simp only [Bool.or_eq_true, decide_eq_true_eq, not_or, not_lt,
      Rect.inner] at hdim
    obtain ⟨hw1, hh1⟩ := hdim
    have hstep : ∀ (b : Buffer) (p : Nat × (String × Style)),
        p ∈ (items.take (area.inner).height).enum →
        set_stringn b (area.inner).x ((area.inner).y + p.1) p.2.1
          (area.inner).width p.2.2 px py = b px py := by
      intro b p hp
      have h1 := List.mem_enum_iff_getElem?.mp hp
      have hlt : p.1 < (area.inner).height := by
        rcases List.getElem?_eq_some.mp h1 with ⟨hlt2, _⟩
        exact lt_of_lt_of_le hlt2 (List.length_take_le _ _)
      have hlen := List.length_take_le (area.inner).width p.2.1.toList
      rw [set_stringn]
      apply setChars_outside
      simp only [Rect.Contains, Rect.inner] at h hlt hlen ⊢
      omega
    rw [foldl_point_preserved px py _ _ _ hstep,
      background_outside _ _ _ _ _
        (by simp only [Rect.Contains, Rect.inner] at h ⊢; omega)]
    exact blockDraw_outside title area buf px py h

/-- C9: the entries panel draw changes only cells inside the given
rectangular region of the shared output buffer: every coordinate outside the
region holds exactly the cell it held before, and, the draw being a pure
function of its inputs, no other state is touched. -/
theorem entries_draw_frame (env : Env) (e : Entries) (area : Rect)
    (buf : Buffer) (px py : Nat) (h : ¬ area.Contains px py) :
    entriesDraw env e area buf px py = buf px py :=
  listDraw_outside (" " ++ entriesTitle env e.root ++ " ")
    (entriesRows env e.tree e.root e.sorting e.selected) area buf px py h

/-- Instantiation of the C9 theorem: the cell just right of a 10 by 5 region
is untouched by an entries draw into it. -/
theorem entries_draw_frame_witness :
    ¬ (⟨0, 0, 10, 5⟩ : Rect).Contains 10 0 ∧
    entriesDraw envA ⟨treeA, 0, SortMode.SizeDescending, none⟩
      ⟨0, 0, 10, 5⟩ bufA 10 0 = bufA 10 0 :=
  ⟨by decide, entries_draw_frame envA ⟨treeA, 0, SortMode.SizeDescending, none⟩
    ⟨0, 0, 10, 5⟩ bufA 10 0 (by decide)⟩

end Widgets
